import Mathlib

/-!
# V Shell (`init.c`): the parse-and-execute engine

Modelling conventions.

* A C string is the list of its characters before the terminating NUL
  (`CString`); a NULL-terminated `char **` is the list of its strings before the
  NULL, and a NULL-terminated `char ***` is a list of such lists.
* The capacity of the 1024-byte string buffers is not part of the model.  The
  capacity of the area in which `vsh_parse_args` keeps the stage pointers is:
  a write past its last slot is undefined behaviour, and the model then gives
  no result (`none`).
* A read of a NULL pointer as a string (`strcmp`, `strdup`) is undefined
  behaviour in C; the model stops there with the outcome `undefined`.
* Operating-system calls whose result the program tests (`open`, `pipe`,
  `fork`, `dup2`, `close`, the exit status collected by `waitpid`) take their
  result from an oracle `Sys`; calls whose result it ignores are recorded as
  events or left out.  Every call is taken to return, except `waitpid`, which
  returns only when the child has ended; whether a program started with
  `execvp` ends is part of the oracle.
* Processes are named by their position in the fork tree (`Proc`), and what the
  program does is recorded as a list of `Event`s.  Every `fork` in the source is
  followed by a blocking `waitpid` in the parent, so the events of a child and
  of its descendants come before the later events of its parent, and a parent
  whose child never ends does nothing more (outcome `blocked`).
-/

namespace Vsh

/-! ## Strings and constants -/

/-- A C string, without its terminating NUL. -/
abbrev CString := List Char

/-- The table `VSH_PREPARE_RULE`: pairs (old string, new string). -/
def VSH_PREPARE_RULE : List (CString × CString) :=
  [("|".toList, " | ".toList), ("<".toList, " < ".toList), (">".toList, " > ".toList)]

/-- The table `VSH_REDIRECT_SYMBOL`. -/
def VSH_REDIRECT_SYMBOL : List CString := [">".toList, "<".toList]

/-- The table `VSH_BUILTINS`. -/
def VSH_BUILTINS : List CString :=
  ["cd".toList, "pwd".toList, "exit".toList, "export".toList, "alias".toList]

/-- The pipe token `"|"` that `vsh_parse_args` compares with. -/
def PIPE : CString := "|".toList

/-! ## Preprocessor: `vsh_str_replace`, `vsh_prepare_line` -/

/-- The libc `strstr`: offset of the first occurrence of `needle` in the string,
`none` for a NULL result. -/
def strstr : CString → CString → Option Nat
  | [], needle => if needle = [] then some 0 else none
  | c :: s, needle =>
    if needle.isPrefixOf (c :: s) then some 0 else (strstr s needle).map (· + 1)

/-- The function `vsh_str_replace`: when `oldstr` does not occur, a copy of
`str`; otherwise the part of `str` before the occurrence found by `strstr`, then
`newstr`, then the part of `str` after that occurrence. -/
def vsh_str_replace (str oldstr newstr : CString) : CString :=
  match strstr str oldstr with
  | none => str
  | some p => str.take p ++ (newstr ++ str.drop (p + oldstr.length))

/-- The function `vsh_prepare_line`: one call of `vsh_str_replace` per rule of
`VSH_PREPARE_RULE`, in table order, each on the result of the previous one. -/
def vsh_prepare_line (line : CString) : CString :=
  VSH_PREPARE_RULE.foldl (fun l rule => vsh_str_replace l rule.1 rule.2) line

/-! ## Tokenizer: `vsh_split_line` -/

/-- The function `vsh_is_builtin`: `args[0]` is not NULL and equals one of the
entries of `VSH_BUILTINS`. -/
def vsh_is_builtin (args : List CString) : Bool :=
  match args with
  | [] => false
  | a :: _ => VSH_BUILTINS.any (fun b => decide (a = b))

/-- The constant `VSH_ARG_BUFF_SIZE`, `1024 * sizeof(char)`. -/
def VSH_ARG_BUFF_SIZE : Nat := 1024

/-- The size of a pointer, `sizeof(char **)`: 8 bytes (LP64). -/
def SIZEOF_POINTER : Nat := 8

/-- The number of stage pointers that fit the area `malloc(VSH_ARG_BUFF_SIZE)`
in which `vsh_parse_args` keeps `argss`: 128. -/
def ARGSS_SLOTS : Nat := VSH_ARG_BUFF_SIZE / SIZEOF_POINTER

/-- The outer `for (i = 0;; i++)` loop of `vsh_parse_args`, with the loop
variables `i`, `start_id` and `args_num`; `args[i]? = none` is the NULL
terminator.  At a NULL or a `"|"` the tokens `args[start_id .. i-1]` are saved
as one stage in `argss[args_num]`; after the loop `argss[args_num]` is set to
NULL.  A write to a slot that `argss` does not have is undefined behaviour:
`none`.  The first argument bounds the number of iterations. -/
def vsh_parse_args_loop (args : List CString) :
    Nat → Nat → Nat → Nat → Option (List (List CString))
  | 0, _, _, _ => none
  | fuel + 1, i, start_id, args_num =>
    match args[i]? with
    | none =>
      if args_num + 1 < ARGSS_SLOTS then some [(args.drop start_id).take (i - start_id)]
      else none
    | some t =>
      if t = PIPE then
        if args_num < ARGSS_SLOTS then
          (vsh_parse_args_loop args fuel (i + 1) (i + 1) (args_num + 1)).map
            (fun later => (args.drop start_id).take (i - start_id) :: later)
        else none
      else vsh_parse_args_loop args fuel (i + 1) start_id args_num

/-- The function `vsh_parse_args`; the loop runs once per token and once for the
terminator (`vsh_parse_args_eq`).  `none` when the stages and the terminating
NULL do not fit `argss`. -/
def vsh_parse_args (args : List CString) : Option (List (List CString)) :=
  vsh_parse_args_loop args (args.length + 1) 0 0 0

/-! ## Processes, events, operating-system oracle -/

/-- A process, named by its place in the fork tree: the interactive shell, the
child that `vsh_run` forks to run a pipeline, or the child that `vsh_pipeline`
forks in process `parent` for the stage of index `cur`. -/
inductive Proc where
  | shell : Proc
  | run_child (parent : Proc) : Proc
  | stage_child (parent : Proc) (cur : Nat) : Proc
  deriving DecidableEq

/-- The three ways `vsh_execute` calls `open`. -/
inductive OpenMode where
  | write_trunc : OpenMode
  | write_append : OpenMode
  | read_only : OpenMode
  deriving DecidableEq

/-- What a process is observed to do. -/
inductive Event where
  | fork (parent child : Proc) : Event
  | perror (p : Proc) (cause : String) : Event
  | open_file (p : Proc) (path : Option CString) (mode : OpenMode) (ok : Bool) : Event
  | chdir (p : Proc) (dir : CString) : Event
  | puts_cwd (p : Proc) : Event
  | exec_builtin (p : Proc) (args : List CString) : Event
  | execvp (p : Proc) (args : List CString) : Event
  | exit (p : Proc) (status : Int) : Event
  deriving DecidableEq

/-- The environment of a process: `(NAME, VALUE)` entries. -/
abbrev Env := List (CString × CString)

/-- How a call ends: it returns a value (with the environment of the process as
it then is), or the process ends in `exit`/`_exit`, or the process calls
`execvp` (its image is replaced or, when that fails, it reports and calls
`_exit(-1)`), or the process stays for ever in `waitpid` because its child
never ends, or the behaviour is undefined. -/
inductive Outcome where
  | returned (ret : Int) (env : Env) : Outcome
  | exited (status : Int) : Outcome
  | execed (args : List CString) : Outcome
  | blocked : Outcome
  | undefined : Outcome
  deriving DecidableEq

/-- Results of the operating-system calls that the program tests.
`pipe p cur` is the pair `(p[0], p[1])` that `pipe` gives process `p` at stage
`cur` (`none` for -1); `dup2_ok p cur old new` says that `dup2(old, new)` made by
process `p` at stage `cur` does not return -1; `exec_ends p args` says that the
program which process `p` starts with `execvp(args[0], args)` comes to an end
(it does not when it runs for ever or stays blocked, for instance writing to a
pipe that is full and that nobody reads); `wait_status p` is what `waitpid`
collects for a child `p` that ended other than by its own `exit`: its exit
status when `WIFEXITED`, `none` otherwise. -/
structure Sys where
  open_ok : Proc → CString → OpenMode → Bool
  exec_ends : Proc → List CString → Bool
  pipe : Proc → Nat → Option (Nat × Nat)
  fork_ok : Proc → Nat → Bool
  dup2_ok : Proc → Nat → Nat → Nat → Bool
  close_ok : Proc → Nat → Nat → Bool
  run_fork_ok : Bool
  wait_status : Proc → Option Int

/-- `STDIN_FILENO`. -/
def STDIN_FILENO : Nat := 0

/-- `STDOUT_FILENO`. -/
def STDOUT_FILENO : Nat := 1

/-- `EXIT_FAILURE`. -/
def EXIT_FAILURE : Int := 1

/-- The function `vsh_error_exit`: `perror(cause)`, then `_exit` or `exit` with
`EXIT_FAILURE`. -/
def vsh_error_exit (self : Proc) (cause : String) : List Event × Outcome :=
  ([Event.perror self cause, Event.exit self EXIT_FAILURE], Outcome.exited EXIT_FAILURE)

/-! ## Redirection resolver: `vsh_shift_util_null`, `vsh_has_redirect` -/

/-- The function `vsh_shift_util_null`: nothing when `args[pos]` is NULL;
otherwise every entry after `pos` moves one place down and the last place
becomes NULL. -/
def vsh_shift_util_null : List CString → Nat → List CString
  | [], _ => []
  | _ :: rest, 0 => rest
  | a :: rest, pos + 1 => a :: vsh_shift_util_null rest pos

/-- The function `vsh_has_redirect`: index of the first entry equal to one of
`VSH_REDIRECT_SYMBOL`, `none` for -1. -/
def vsh_has_redirect : List CString → Option Nat
  | [] => none
  | a :: rest =>
    if VSH_REDIRECT_SYMBOL.any (fun sym => decide (sym = a)) then some 0
    else (vsh_has_redirect rest).map (· + 1)

/-! ## Builtins: `vsh_exec_builtin` -/

/-- The libc `getenv`. -/
def getenv (env : Env) (name : CString) : Option CString :=
  (env.find? (fun e => decide (e.1 = name))).map (·.2)

/-- The libc `setenv(name, value, 1)` as POSIX.1-2017 (the reference named in
the header of `init.c`) specifies it: the call fails with EINVAL and changes
nothing when `name` is empty or contains `=`; otherwise the entry for `name` is
overwritten, or added when there is none. -/
def setenv (env : Env) (name value : CString) : Env :=
  if name = [] ∨ '=' ∈ name then env
  else if env.any (fun e => decide (e.1 = name)) then
    env.map (fun e => if e.1 = name then (name, value) else e)
  else env ++ [(name, value)]

/-- The libc `strchr(s, c)`: offset of the first `c` in `s`, `none` for NULL. -/
def strchr : CString → Char → Option Nat
  | [], _ => none
  | x :: s, c => if x = c then some 0 else (strchr s c).map (· + 1)

/-- The function `vsh_exec_builtin`, run by process `self` with environment
`env`. -/
def vsh_exec_builtin (self : Proc) (args : List CString) (env : Env) : List Event × Outcome :=
  match args with
  | [] => ([], Outcome.undefined)
  | a0 :: rest =>
    if a0 = "cd".toList then
      match rest with
      | [] => ([], Outcome.returned 0 env)
      | dir :: _ => ([Event.chdir self dir], Outcome.returned 0 env)
    else if a0 = "pwd".toList then
      ([Event.puts_cwd self], Outcome.returned 0 env)
    else if a0 = "exit".toList then
      ([Event.exit self 0], Outcome.exited 0)
    else if a0 = "export".toList then
      match rest with
      | [] => ([], Outcome.undefined)
      | cmd :: _ =>
        match strchr cmd '=' with
        | none => ([], Outcome.returned 0 env)
        | some eq => ([], Outcome.returned 0 (setenv env (cmd.take eq) (cmd.drop (eq + 1))))
    else ([], Outcome.returned 0 env)

/-! ## Execute: `vsh_execute` -/

/-- The `open` call of `vsh_execute` and the test after it: `open` of a NULL
path fails; on -1 the failure is reported with `perror("open file")`, and
execution goes on. -/
def open_events (sys : Sys) (self : Proc) (path : Option CString) (mode : OpenMode) :
    List Event :=
  let ok : Bool :=
    match path with
    | none => false
    | some file => sys.open_ok self file mode
  Event.open_file self path mode ok :: (if ok then [] else [Event.perror self "open file"])

/-- The function `vsh_execute`, run by process `self`; the first argument bounds
the depth of its recursion. `none` only when that bound is reached. -/
def vsh_execute_fuel (sys : Sys) (self : Proc) :
    Nat → List CString → Env → Option (List Event × Outcome)
  | 0, _, _ => none
  | fuel + 1, args, env =>
    match args with
    | [] => some ([], Outcome.returned 0 env)
    | _ :: _ =>
      match vsh_has_redirect args with
      | some red_pos =>
        match args[red_pos]?, args[red_pos + 1]? with
        | some op, some next =>
          let sel : Option (Bool × Nat) :=
            if op = next then
              (if op = ">".toList then some (true, STDOUT_FILENO) else none)
            else
              (if op = ">".toList then some (false, STDOUT_FILENO)
               else some (false, STDIN_FILENO))
          match sel with
          | none =>
            some ([Event.perror self "not impl", Event.exit self (-1)], Outcome.exited (-1))
          | some (append, red_fd) =>
            let path : Option CString :=
              if red_fd = STDOUT_FILENO then
                (if append then args[red_pos + 2]? else args[red_pos + 1]?)
              else args[red_pos + 1]?
            let mode : OpenMode :=
              if red_fd = STDOUT_FILENO then
                (if append then OpenMode.write_append else OpenMode.write_trunc)
              else OpenMode.read_only
            let opened : List Event := open_events sys self path mode
            let args1 := vsh_shift_util_null (vsh_shift_util_null args red_pos) red_pos
            let args2 := if append then vsh_shift_util_null args1 red_pos else args1
            match vsh_execute_fuel sys self fuel args2 env with
            | none => none
            | some (evs, out) => some (opened ++ evs, out)
        | _, _ => some ([], Outcome.undefined)
      | none =>
        if vsh_is_builtin args then
          let r := vsh_exec_builtin self args env
          some (Event.exec_builtin self args :: r.1, r.2)
        else some ([Event.execvp self args], Outcome.execed args)

/-- The function `vsh_execute`. Every recursive call is on a shorter vector, so
`length + 1` levels are enough (`vsh_execute_fuel_isSome`). -/
def vsh_execute (sys : Sys) (self : Proc) (args : List CString) (env : Env) :
    List Event × Outcome :=
  (vsh_execute_fuel sys self (args.length + 1) args env).getD ([], Outcome.undefined)

/-! ## Pipeline executor: `vsh_pipeline` -/

/-- The call `waitpid(pid, &status, 0)` on a child that ends as `child_out`:
`none` when the call returns, that is when the child has ended (by `exit`, or
because the program it started has ended); otherwise what becomes of the
waiting process: it stays blocked when the child never ends, and nothing is
known when the behaviour of the child is undefined.  (A child that returned
from `vsh_pipeline` would reach the `_exit(-1)` of `vsh_run`.) -/
def waitpid_blocks (sys : Sys) (child : Proc) (child_out : Outcome) : Option Outcome :=
  match child_out with
  | Outcome.returned _ _ => none
  | Outcome.exited _ => none
  | Outcome.execed args => if sys.exec_ends child args then none else some Outcome.blocked
  | Outcome.blocked => some Outcome.blocked
  | Outcome.undefined => some Outcome.undefined

/-- The block `if (pid == 0) { ... }` of `vsh_pipeline`, run by the child forked
for stage `cur`: the two `dup2`, the `close`, and `vsh_execute(args)` when the
last two succeeded.  When the block does not end the process the outcome is
`returned`, with the environment of the child as it then is. -/
def stage_child_block (sys : Sys) (child : Proc) (cur in_fd p1 : Nat) (args : List CString)
    (env : Env) : List Event × Outcome :=
  let in_redirect : List Event :=
    if sys.dup2_ok child cur in_fd STDIN_FILENO then []
    else [Event.perror child "in redirect failed"]
  let in_child : List Event × Outcome :=
    if sys.dup2_ok child cur p1 STDOUT_FILENO = false then
      ([Event.perror child "out redirect failed"], Outcome.returned 0 env)
    else if sys.close_ok child cur p1 = false then
      ([Event.perror child "close dup fd failed"], Outcome.returned 0 env)
    else vsh_execute sys child args env
  (in_redirect ++ in_child.1, in_child.2)

/-- What follows a successful `fork` in the middle command of `vsh_pipeline`.
`in_child` is the block run by the child; when that block has not ended the
child, the child goes on with `vsh_pipeline(argss, cur + 1, p[0])`
(`child_later`, from the environment of the child).  The parent calls
`waitpid`: when the call returns it goes on with
`vsh_pipeline(argss, cur + 1, p[0])` (`parent_rest`); when it does not, the
parent does nothing more. -/
def after_fork (sys : Sys) (self child : Proc) (in_child : List Event × Outcome)
    (child_later : Env → List Event × Outcome) (parent_rest : List Event × Outcome) :
    List Event × Outcome :=
  let child_run : List Event × Outcome :=
    match in_child.2 with
    | Outcome.returned _ env1 => (in_child.1 ++ (child_later env1).1, (child_later env1).2)
    | out => (in_child.1, out)
  match waitpid_blocks sys child child_run.2 with
  | some out => (Event.fork self child :: child_run.1, out)
  | none => (Event.fork self child :: child_run.1 ++ parent_rest.1, parent_rest.2)

/-- The function `vsh_pipeline(argss, cur, in_fd)` run by process `self` with
environment `env`; the first list is `argss` from index `cur` on, so its head is
`argss[cur]` and its tail is empty exactly when `argss[cur + 1]` is NULL.
The result is the events of `self` and of the processes below it, and how
`self` ends.

Last command: `dup2` when `in_fd` is not the standard input, `vsh_execute`, then
`vsh_error_exit`.  Middle command: `pipe`, `fork`; the child runs its block
(`stage_child_block`); whatever has not ended the process by then goes on with
the two `close` calls, `waitpid` and `vsh_pipeline(argss, cur + 1, p[0])`, in the
child as in the parent (`after_fork`).  The parent gets past its `waitpid` only
when the child has ended; in the child `pid` is 0 and `waitpid` returns at
once. -/
def vsh_pipeline_from (sys : Sys) :
    List (List CString) → Nat → Nat → Proc → Env → List Event × Outcome
  | [], _, _, _, _ => ([], Outcome.undefined)
  | [args], cur, in_fd, self, env =>
    if in_fd ≠ STDIN_FILENO ∧ sys.dup2_ok self cur in_fd STDIN_FILENO = false then
      vsh_error_exit self "pipeline dup2"
    else
      let r := vsh_execute sys self args env
      match r.2 with
      | Outcome.returned _ _ =>
        (r.1 ++ (vsh_error_exit self "pipeline execvp").1,
          (vsh_error_exit self "pipeline execvp").2)
      | out => (r.1, out)
  | args :: next :: more, cur, in_fd, self, env =>
    match sys.pipe self cur with
    | none => vsh_error_exit self "pipeline pipe"
    | some (p0, p1) =>
      if sys.fork_ok self cur = false then vsh_error_exit self "pipeline fork"
      else
        after_fork sys self (Proc.stage_child self cur)
          (stage_child_block sys (Proc.stage_child self cur) cur in_fd p1 args env)
          (fun env1 =>
            vsh_pipeline_from sys (next :: more) (cur + 1) p0 (Proc.stage_child self cur) env1)
          (vsh_pipeline_from sys (next :: more) (cur + 1) p0 self env)

/-- The function `vsh_pipeline`. -/
def vsh_pipeline (sys : Sys) (argss : List (List CString)) (cur in_fd : Nat) (self : Proc)
    (env : Env) : List Event × Outcome :=
  vsh_pipeline_from sys (argss.drop cur) cur in_fd self env

/-! ## Run and main loop: `vsh_run`, `vsh_loop` -/

/-- The function `vsh_run` in the shell process.  With no token it returns 0.
A single stage (`argss[1]` is NULL) whose first token is a builtin name is
executed in the shell itself; anything else is run by `vsh_pipeline` in a forked
child, and once `waitpid` has returned the value returned is the exit status of
that child, or -1.  (`fork` is not checked in the source: when it fails,
`status` is read uninitialised.) -/
def vsh_run (sys : Sys) (args : List CString) (env : Env) : List Event × Outcome :=
  match args with
  | [] => ([], Outcome.returned 0 env)
  | _ :: _ =>
    match vsh_parse_args args with
    | none => ([], Outcome.undefined)
    | some argss =>
      if argss[1]? = none ∧ vsh_is_builtin (argss.headD []) = true then
        vsh_execute sys Proc.shell (argss.headD []) env
      else if sys.run_fork_ok = false then ([], Outcome.undefined)
      else
        let child := Proc.run_child Proc.shell
        let r := vsh_pipeline sys argss 0 STDIN_FILENO child env
        match waitpid_blocks sys child r.2 with
        | some out => (Event.fork Proc.shell child :: r.1, out)
        | none =>
          let ret : Int :=
            match r.2 with
            | Outcome.exited status => status % 256
            | _ => (sys.wait_status child).getD (-1)
          (Event.fork Proc.shell child :: r.1, Outcome.returned ret env)

/-- The loop of `vsh_parse_args` seen from the tokens still to read: `cur` holds
the tokens `args[start_id .. i-1]` collected since the last `"|"`. -/
def parse_rec : List CString → List CString → List (List CString)
  | [], cur => [cur]
  | t :: rest, cur => if t = PIPE then cur :: parse_rec rest [] else parse_rec rest (cur ++ [t])


/-- The text that the preprocessor is specified to produce: every `|`, `<` and
`>` of the line replaced by that character between two spaces, every other
character kept. -/
def pad_every_operator : CString → CString
  | [] => []
  | c :: s =>
    if c = '|' ∨ c = '<' ∨ c = '>' then ' ' :: c :: ' ' :: pad_every_operator s
    else c :: pad_every_operator s

/-- The token is one of `VSH_REDIRECT_SYMBOL`, the test made by
`vsh_has_redirect`. -/
def is_redirect (t : CString) : Bool := VSH_REDIRECT_SYMBOL.any (fun sym => decide (sym = t))

/-- Every redirection operator of the vector (a single `>`, a single `<`, or two
consecutive `>`) is followed by a path token that is neither `>` nor `<`. -/
def redirs_wellformed : List CString → Bool
  | [] => true
  | t :: rest =>
    if is_redirect t then
      match rest with
      | [] => false
      | n :: rest1 =>
        if is_redirect n then
          decide (t = ">".toList) && decide (n = ">".toList) &&
            (match rest1 with
             | [] => false
             | path :: rest2 => !is_redirect path && redirs_wellformed rest2)
        else redirs_wellformed rest1
    else redirs_wellformed rest

/-- The vector with every redirection operator and the path token after it
removed, the other tokens in their order. -/
def strip_redirs : List CString → List CString
  | [] => []
  | t :: rest =>
    if is_redirect t then
      match rest with
      | [] => []
      | n :: rest1 =>
        if is_redirect n then
          (match rest1 with
           | [] => []
           | _ :: rest2 => strip_redirs rest2)
        else strip_redirs rest1
    else t :: strip_redirs rest

/-- The argument vectors that reach the end of `vsh_execute`: those handed to
`vsh_exec_builtin` or to `execvp`, in order. -/
def handed_vectors (evs : List Event) : List (List CString) :=
  evs.filterMap (fun e =>
    match e with
    | Event.exec_builtin _ args => some args
    | Event.execvp _ args => some args
    | _ => none)

/-- What `vsh_execute` does with a vector in which `vsh_has_redirect` finds
nothing: return 0 when it is empty, otherwise builtin dispatch or `execvp`. -/
def vsh_execute_plain (self : Proc) (args : List CString) (env : Env) : List Event × Outcome :=
  match args with
  | [] => ([], Outcome.returned 0 env)
  | _ :: _ =>
    if vsh_is_builtin args then
      (Event.exec_builtin self args :: (vsh_exec_builtin self args env).1,
        (vsh_exec_builtin self args env).2)
    else ([Event.execvp self args], Outcome.execed args)

/-- The event records the `open` call of `vsh_execute` or its failure report. -/
def is_open_report (e : Event) : Bool :=
  match e with
  | Event.open_file _ _ _ _ => true
  | Event.perror _ cause => decide (cause = "open file")
  | _ => false

/-- An operating system in which every call succeeds and every program started
comes to an end; `pipe` returns the two lowest descriptors above the standard
ones. -/
def sys_all_ok : Sys where
  open_ok := fun _ _ _ => true
  exec_ends := fun _ _ => true
  pipe := fun _ _ => some (3, 4)
  fork_ok := fun _ _ => true
  dup2_ok := fun _ _ _ _ => true
  close_ok := fun _ _ _ => true
  run_fork_ok := true
  wait_status := fun _ => some 0

/-- An operating system in which no file can be opened. -/
def sys_open_fails : Sys :=
  { sys_all_ok with open_ok := fun _ _ _ => false }

/-- The operating system as it answers while the shell runs `cd | ls | wc`
(and `cd | ls`) from a terminal, descriptors 0, 1, 2 open.  The pipeline process
gets the pipe (3, 4) at stage 0; it then closes descriptor 0 (`close(in_fd)`),
so its next pipe is (0, 4).  The child forked for stage 0 closes 3, 4 and then
0, so the pipe it creates when it goes on to stage 1 is (0, 3); when stage 1 is
the last stage, its `dup2(3, 0)` is made on the descriptor it closed and
fails.  `cd`, `ls` and `wc` all come to an end. -/
def sys_terminal : Sys where
  open_ok := fun _ _ _ => true
  exec_ends := fun _ _ => true
  pipe := fun p cur =>
    if p = Proc.run_child Proc.shell then (if cur = 0 then some (3, 4) else some (0, 4))
    else some (0, 3)
  fork_ok := fun _ _ => true
  dup2_ok := fun p cur _ _ =>
    decide (¬ (p = Proc.stage_child (Proc.run_child Proc.shell) 0 ∧ cur = 1))
  close_ok := fun _ _ _ => true
  run_fork_ok := true
  wait_status := fun _ => some 0

/-- The event is a call of `vsh_exec_builtin`. -/
def is_builtin_dispatch (e : Event) : Bool :=
  match e with
  | Event.exec_builtin _ _ => true
  | _ => false

/-- The event is a call of `execvp`. -/
def is_execvp (e : Event) : Bool :=
  match e with
  | Event.execvp _ _ => true
  | _ => false

/-- The behaviour of `vsh_execute` on the stage is defined: its redirections are
well formed (no operator is compared with, or followed by, a NULL), and what
remains is not `export` alone, for which `vsh_exec_builtin` calls
`strdup(NULL)`. -/
def stage_defined (stage : List CString) : Bool :=
  redirs_wellformed stage && decide (strip_redirs stage ≠ ["export".toList])

/-- The process has come to its last action: it has called `exit` or `_exit`,
or it has called `execvp`. -/
def has_ended (out : Outcome) : Bool :=
  match out with
  | Outcome.exited _ => true
  | Outcome.execed _ => true
  | _ => false

/-- In process `self`, every call that `vsh_pipeline` makes before it reaches
`vsh_execute` succeeds: `pipe` and `fork` at every stage, in the child forked
for the stage the `dup2` onto the standard output and the `close` after it, and
in `self` the `dup2` onto the standard input before the last stage. -/
def calls_succeed (sys : Sys) (self : Proc) : Prop :=
  ∀ cur : Nat,
    (∃ p0 p1, sys.pipe self cur = some (p0, p1)) ∧ sys.fork_ok self cur = true ∧
      (∀ fd, sys.dup2_ok (Proc.stage_child self cur) cur fd STDOUT_FILENO = true) ∧
      (∀ fd, sys.close_ok (Proc.stage_child self cur) cur fd = true) ∧
      (∀ fd, sys.dup2_ok self cur fd STDIN_FILENO = true)

/-! ## Pipeline parser: proofs -/

theorem parse_loop_eq (args : List CString) :
    ∀ (fuel i start_id args_num : Nat), start_id ≤ i → i ≤ args.length →
      args.length < fuel + i →
      vsh_parse_args_loop args fuel i start_id args_num
        = if args_num + (args.drop i).count PIPE + 2 ≤ ARGSS_SLOTS then
            some (parse_rec (args.drop i) ((args.drop start_id).take (i - start_id)))
          else none := by
  intro fuel
  induction fuel with
  | zero => intro i s n _ h1 h2; omega
  | succ k ih =>
    intro i s n hs hi hf
    unfold vsh_parse_args_loop
    rcases Nat.lt_or_ge i args.length with hlt | hge
    · have hget : args[i]? = some args[i] := List.getElem?_eq_getElem hlt
      have hdrop : args.drop i = args[i] :: args.drop (i + 1) := List.drop_eq_getElem_cons hlt
      rw [hget, hdrop]
      simp only [parse_rec]
      by_cases hp : args[i] = PIPE
      · simp only [hp, if_true, List.count_cons_self]
        rw [ih (i + 1) (i + 1) (n + 1) (le_refl _) hlt (by omega)]
        by_cases hn : n + ((args.drop (i + 1)).count PIPE + 1) + 2 ≤ ARGSS_SLOTS
        · have h1 : n < ARGSS_SLOTS := by omega
          have h2 : n + 1 + (args.drop (i + 1)).count PIPE + 2 ≤ ARGSS_SLOTS := by omega
          simp [h1, h2, hn]
        · have h2 : ¬ (n + 1 + (args.drop (i + 1)).count PIPE + 2 ≤ ARGSS_SLOTS) := by omega
          simp [h2, hn]
      · have hc : (args[i] :: args.drop (i + 1)).count PIPE = (args.drop (i + 1)).count PIPE := by
          rw [List.count_cons_of_ne (fun e => hp e.symm)]
        simp only [hp, if_false, hc]
        rw [ih (i + 1) s n (by omega) hlt (by omega)]
        have hslice : (args.drop s).take (i + 1 - s) = (args.drop s).take (i - s) ++ [args[i]] := by
          have : i + 1 - s = (i - s) + 1 := by omega
          rw [this, List.take_succ]
          congr 1
          simp [List.getElem?_drop, show s + (i - s) = i by omega, hget]
        rw [hslice]
    · have hget : args[i]? = none := List.getElem?_eq_none hge
      rw [hget, List.drop_eq_nil_of_le hge]
      simp only [parse_rec, List.count_nil, Nat.add_zero]
      by_cases hn : n + 2 ≤ ARGSS_SLOTS
      · have h1 : n + 1 < ARGSS_SLOTS := by omega
        simp [h1, hn]
      · have h1 : ¬ (n + 1 < ARGSS_SLOTS) := by omega
        simp [h1, hn]

/-- The function `vsh_parse_args` gives a result exactly when the stages and the
terminating NULL fit `argss`, and the result is then the list of the stretches
of tokens between `"|"` tokens. -/
theorem vsh_parse_args_eq (ts : List CString) :
    vsh_parse_args ts =
      if ts.count PIPE + 2 ≤ ARGSS_SLOTS then some (parse_rec ts []) else none := by
  unfold vsh_parse_args
  rw [parse_loop_eq ts _ 0 0 0 (le_refl _) (Nat.zero_le _) (by omega)]
  simp

theorem parse_rec_length (ts cur : List CString) :
    (parse_rec ts cur).length = ts.count PIPE + 1 := by
  induction ts generalizing cur with
  | nil => simp [parse_rec]
  | cons t rest ih =>
    simp only [parse_rec]
    by_cases h : t = PIPE
    · simp [h, ih]
    · simp [h, ih, List.count_cons]

theorem parse_rec_no_pipe (ts cur : List CString) (hc : PIPE ∉ cur) :
    ∀ s ∈ parse_rec ts cur, PIPE ∉ s := by
  induction ts generalizing cur with
  | nil => simpa [parse_rec] using hc
  | cons t rest ih =>
    simp only [parse_rec]
    by_cases h : t = PIPE
    · simp only [h, if_true, List.mem_cons]
      rintro s (rfl | hs)
      · exact hc
      · exact ih [] (by simp) s hs
    · simp only [h, if_false]
      apply ih
      simp [hc]
      exact fun h2 => h h2.symm

theorem parse_rec_ne_nil (ts cur : List CString) : parse_rec ts cur ≠ [] := by
  induction ts generalizing cur with
  | nil => simp [parse_rec]
  | cons t rest ih =>
    simp only [parse_rec]
    by_cases h : t = PIPE
    · simp [h]
    · simpa [h] using ih _

theorem intercalate_cons_of_ne_nil (sep x : List CString) (l : List (List CString))
    (hl : l ≠ []) : List.intercalate sep (x :: l) = x ++ (sep ++ List.intercalate sep l) := by
  cases l with
  | nil => exact absurd rfl hl
  | cons y l => simp [List.intercalate, List.intersperse]

theorem parse_rec_intercalate (ts cur : List CString) :
    List.intercalate [PIPE] (parse_rec ts cur) = cur ++ ts := by
  induction ts generalizing cur with
  | nil => simp [parse_rec, List.intercalate]
  | cons t rest ih =>
    simp only [parse_rec]
    by_cases h : t = PIPE
    · simp only [h, if_true]
      rw [intercalate_cons_of_ne_nil _ _ _ (parse_rec_ne_nil rest []), ih []]
      simp
    · simp [h, ih]

/-- C1 (code as it is): on `a|b|c` the preprocessor pads only the first `|`: the
result is `a | b|c`, not `a | b | c`, the line with every operator padded. -/
theorem C1_prepare_line_pads_first_occurrence_only :
    vsh_prepare_line "a|b|c".toList = "a | b|c".toList
      ∧ pad_every_operator "a|b|c".toList = "a | b | c".toList
      ∧ vsh_prepare_line "a|b|c".toList ≠ pad_every_operator "a|b|c".toList := by
  decide

/-- C10 (counterexample): with 127 tokens `|` there are 128 stages; they fill
the 128 slots of `argss`, and the terminating NULL is written past the end of
the area: the code has no defined result. -/
theorem C10_parse_args_overflows_at_127_pipes :
    vsh_parse_args (List.replicate 127 PIPE) = none
      ∧ ¬ ∃ stages, vsh_parse_args (List.replicate 127 PIPE) = some stages
          ∧ stages.length = (List.replicate 127 PIPE).count PIPE + 1 := by
  have h : vsh_parse_args (List.replicate 127 PIPE) = none := by
    rw [vsh_parse_args_eq, if_neg]
    simp only [List.count_replicate_self]
    decide
  refine ⟨h, ?_⟩
  rintro ⟨stages, hs, _⟩
  rw [h] at hs
  exact Option.noConfusion hs

/-- C10 (amended): for a token sequence whose stages and terminating NULL fit
`argss` (at most 126 `|`), `vsh_parse_args` returns one more stage than there
are `|` tokens, no stage contains `|`, and the stages joined with one `|`
between consecutive stages give back the token sequence. -/
theorem C10_parse_args_splits_at_every_pipe (ts : List CString)
    (hfit : ts.count PIPE + 2 ≤ ARGSS_SLOTS) :
    ∃ stages, vsh_parse_args ts = some stages
      ∧ stages.length = ts.count PIPE + 1
      ∧ (∀ s ∈ stages, PIPE ∉ s)
      ∧ List.intercalate [PIPE] stages = ts := by
  refine ⟨parse_rec ts [], ?_, parse_rec_length ts [], parse_rec_no_pipe ts [] (by simp), ?_⟩
  · rw [vsh_parse_args_eq, if_pos hfit]
  · simpa using parse_rec_intercalate ts []

/-- C10 (amended), at the tokens `|`, `a`, `|`, `|`: four stages, three of them
empty. -/
theorem C10_parse_args_splits_at_every_pipe_witness :
    [PIPE, "a".toList, PIPE, PIPE].count PIPE + 2 ≤ ARGSS_SLOTS
      ∧ ∃ stages, vsh_parse_args [PIPE, "a".toList, PIPE, PIPE] = some stages
        ∧ stages.length = [PIPE, "a".toList, PIPE, PIPE].count PIPE + 1
        ∧ (∀ s ∈ stages, PIPE ∉ s)
        ∧ List.intercalate [PIPE] stages = [PIPE, "a".toList, PIPE, PIPE] :=
  ⟨by decide, C10_parse_args_splits_at_every_pipe [PIPE, "a".toList, PIPE, PIPE] (by decide)⟩

/-! ## Redirection resolver: proofs -/

theorem vsh_has_redirect_none (args : List CString) (h : ∀ t ∈ args, is_redirect t = false) :
    vsh_has_redirect args = none := by
  induction args with
  | nil => rfl
  | cons a rest ih =>
    have ha : is_redirect a = false := h a (by simp)
    have hr := ih (fun t ht => h t (by simp [ht]))
    unfold is_redirect at ha
    simp [vsh_has_redirect, ha, hr]

theorem vsh_has_redirect_append (pre : List CString) (op : CString) (post : List CString)
    (hpre : ∀ t ∈ pre, is_redirect t = false) (hop : is_redirect op = true) :
    vsh_has_redirect (pre ++ op :: post) = some pre.length := by
  induction pre with
  | nil =>
    unfold is_redirect at hop
    simp [vsh_has_redirect, hop]
  | cons a rest ih =>
    have ha : is_redirect a = false := hpre a (by simp)
    have hr := ih (fun t ht => hpre t (by simp [ht]))
    unfold is_redirect at ha
    simp [vsh_has_redirect, ha, hr]

theorem vsh_shift_util_null_append (pre : List CString) (x : CString) (post : List CString) :
    vsh_shift_util_null (pre ++ x :: post) pre.length = pre ++ post := by
  induction pre with
  | nil => rfl
  | cons a rest ih => simp [vsh_shift_util_null, ih]

theorem vsh_shift_util_null_end (pre : List CString) :
    vsh_shift_util_null pre pre.length = pre := by
  induction pre with
  | nil => rfl
  | cons a rest ih => simp [vsh_shift_util_null, ih]

/-- Split a vector at its first redirection operator. -/
theorem exists_first_redirect (args : List CString) :
    (∀ t ∈ args, is_redirect t = false) ∨
      ∃ pre op post, args = pre ++ op :: post ∧ (∀ t ∈ pre, is_redirect t = false)
        ∧ is_redirect op = true := by
  induction args with
  | nil => left; simp
  | cons a rest ih =>
    by_cases ha : is_redirect a = true
    · right; exact ⟨[], a, rest, rfl, by simp, ha⟩
    · have ha2 : is_redirect a = false := by simpa using ha
      rcases ih with h | ⟨pre, op, post, he, hp, ho⟩
      · left
        intro t ht
        rcases List.mem_cons.mp ht with rfl | ht
        · exact ha2
        · exact h t ht
      · right
        refine ⟨a :: pre, op, post, by simp [he], ?_, ho⟩
        intro t ht
        rcases List.mem_cons.mp ht with rfl | ht
        · exact ha2
        · exact hp t ht

theorem redirs_wellformed_cons_plain (t : CString) (rest : List CString) (h : is_redirect t = false) :
    redirs_wellformed (t :: rest) = redirs_wellformed rest := by
  conv_lhs => unfold redirs_wellformed
  simp [h]

theorem redirs_wellformed_cons_single (t n : CString) (rest : List CString)
    (h : is_redirect t = true) (hn : is_redirect n = false) :
    redirs_wellformed (t :: n :: rest) = redirs_wellformed rest := by
  conv_lhs => unfold redirs_wellformed
  simp [h, hn]

theorem redirs_wellformed_cons_double (t n : CString) (rest : List CString)
    (h : is_redirect t = true) (hn : is_redirect n = true) :
    redirs_wellformed (t :: n :: rest) =
      (decide (t = ">".toList) && decide (n = ">".toList) &&
        (match rest with
         | [] => false
         | path :: rest2 => !is_redirect path && redirs_wellformed rest2)) := by
  conv_lhs => unfold redirs_wellformed
  simp [h, hn]

theorem redirs_wellformed_dangling (t : CString) (h : is_redirect t = true) :
    redirs_wellformed [t] = false := by
  conv_lhs => unfold redirs_wellformed
  simp [h]

theorem strip_redirs_cons_plain (t : CString) (rest : List CString) (h : is_redirect t = false) :
    strip_redirs (t :: rest) = t :: strip_redirs rest := by
  conv_lhs => unfold strip_redirs
  simp [h]

theorem strip_redirs_cons_single (t n : CString) (rest : List CString)
    (h : is_redirect t = true) (hn : is_redirect n = false) :
    strip_redirs (t :: n :: rest) = strip_redirs rest := by
  conv_lhs => unfold strip_redirs
  simp [h, hn]

theorem strip_redirs_cons_double (t n path : CString) (rest : List CString)
    (h : is_redirect t = true) (hn : is_redirect n = true) :
    strip_redirs (t :: n :: path :: rest) = strip_redirs rest := by
  conv_lhs => unfold strip_redirs
  simp [h, hn]

theorem redirs_wellformed_append (pre l : List CString)
    (hpre : ∀ t ∈ pre, is_redirect t = false) :
    redirs_wellformed (pre ++ l) = redirs_wellformed l := by
  induction pre with
  | nil => rfl
  | cons a rest ih =>
    have ha : is_redirect a = false := hpre a (by simp)
    rw [List.cons_append, redirs_wellformed_cons_plain _ _ ha,
      ih (fun t ht => hpre t (by simp [ht]))]

theorem strip_redirs_append (pre l : List CString)
    (hpre : ∀ t ∈ pre, is_redirect t = false) :
    strip_redirs (pre ++ l) = pre ++ strip_redirs l := by
  induction pre with
  | nil => rfl
  | cons a rest ih =>
    have ha : is_redirect a = false := hpre a (by simp)
    rw [List.cons_append, strip_redirs_cons_plain _ _ ha,
      ih (fun t ht => hpre t (by simp [ht]))]
    rfl

theorem strip_redirs_of_none (l : List CString) (h : ∀ t ∈ l, is_redirect t = false) :
    strip_redirs l = l := by
  have := strip_redirs_append l [] h
  simpa [strip_redirs] using this

theorem is_redirect_iff (t : CString) :
    is_redirect t = true ↔ t = ">".toList ∨ t = "<".toList := by
  unfold is_redirect VSH_REDIRECT_SYMBOL
  simp only [List.any_cons, List.any_nil, Bool.or_false, Bool.or_eq_true, decide_eq_true_eq]
  constructor
  · rintro (h | h)
    · exact Or.inl h.symm
    · exact Or.inr h.symm
  · rintro (h | h)
    · exact Or.inl h.symm
    · exact Or.inr h.symm

/-- In a well-formed vector no token of the stripped vector is an operator. -/
theorem strip_redirs_no_redirect :
    ∀ (n : Nat) (l : List CString), l.length < n → redirs_wellformed l = true →
      ∀ t ∈ strip_redirs l, is_redirect t = false := by
  intro n
  induction n with
  | zero => intro l h; omega
  | succ n ih =>
    intro l hl hw
    cases l with
    | nil => simp [strip_redirs]
    | cons a rest =>
      by_cases ha : is_redirect a = true
      · cases rest with
        | nil => simp [redirs_wellformed_dangling a ha] at hw
        | cons b rest1 =>
          by_cases hb : is_redirect b = true
          · rw [redirs_wellformed_cons_double a b rest1 ha hb] at hw
            cases rest1 with
            | nil => simp at hw
            | cons c rest2 =>
              rw [strip_redirs_cons_double a b c rest2 ha hb]
              simp only [Bool.and_eq_true] at hw
              exact ih rest2 (by simp at hl; omega) hw.2.2
          · have hb2 : is_redirect b = false := by simpa using hb
            rw [redirs_wellformed_cons_single a b rest1 ha hb2] at hw
            rw [strip_redirs_cons_single a b rest1 ha hb2]
            exact ih rest1 (by simp at hl; omega) hw
      · have ha2 : is_redirect a = false := by simpa using ha
        rw [redirs_wellformed_cons_plain a rest ha2] at hw
        rw [strip_redirs_cons_plain a rest ha2]
        intro t ht
        rcases List.mem_cons.mp ht with rfl | ht
        · exact ha2
        · exact ih rest (by simp at hl; omega) hw t ht

theorem vsh_execute_fuel_plain (sys : Sys) (self : Proc) (fuel : Nat) (args : List CString)
    (env : Env) (h : ∀ t ∈ args, is_redirect t = false) :
    vsh_execute_fuel sys self (fuel + 1) args env = some (vsh_execute_plain self args env) := by
  cases args with
  | nil => rfl
  | cons a rest =>
    simp only [vsh_execute_fuel, vsh_has_redirect_none (a :: rest) h, vsh_execute_plain]
    split <;> rfl

theorem getElem?_append_first (pre : List CString) (x : CString) (post : List CString) :
    (pre ++ x :: post)[pre.length]? = some x := by
  rw [List.getElem?_append_right (le_refl _)]
  simp

theorem getElem?_append_second (pre : List CString) (x y : CString) (post : List CString) :
    (pre ++ x :: y :: post)[pre.length + 1]? = some y := by
  rw [List.getElem?_append_right (by omega)]
  simp

theorem getElem?_append_third (pre : List CString) (x y z : CString) (post : List CString) :
    (pre ++ x :: y :: z :: post)[pre.length + 2]? = some z := by
  rw [List.getElem?_append_right (by omega)]
  simp

theorem open_events_report (sys : Sys) (self : Proc) (path : Option CString) (mode : OpenMode) :
    ∀ e ∈ open_events sys self path mode, is_open_report e = true := by
  intro e he
  unfold open_events at he
  simp only [List.mem_cons] at he
  rcases he with rfl | he
  · rfl
  · split at he
    · simp at he
    · simp at he; subst he; rfl

theorem vsh_execute_fuel_single (sys : Sys) (self : Proc) (fuel : Nat)
    (pre : List CString) (op n : CString) (post : List CString) (env : Env)
    (hpre : ∀ t ∈ pre, is_redirect t = false) (hop : is_redirect op = true)
    (hn : is_redirect n = false) :
    vsh_execute_fuel sys self (fuel + 1) (pre ++ op :: n :: post) env =
      (vsh_execute_fuel sys self fuel (pre ++ post) env).map
        (fun r => (open_events sys self (some n)
          (if op = ">".toList then OpenMode.write_trunc else OpenMode.read_only) ++ r.1, r.2)) := by
  have hne : op ≠ n := by
    intro e
    rw [e, hn] at hop
    exact Bool.noConfusion hop
  have hs1 : vsh_shift_util_null (pre ++ op :: n :: post) pre.length = pre ++ n :: post :=
    vsh_shift_util_null_append pre op (n :: post)
  have hs2 : vsh_shift_util_null (pre ++ n :: post) pre.length = pre ++ post :=
    vsh_shift_util_null_append pre n post
  have hh := vsh_has_redirect_append pre op (n :: post) hpre hop
  have h0 := getElem?_append_first pre op (n :: post)
  have h1 := getElem?_append_second pre op n post
  generalize pre ++ op :: n :: post = args at hh h0 h1 hs1
  cases args with
  | nil => simp [vsh_has_redirect] at hh
  | cons a rest =>
    simp only [vsh_execute_fuel, hh, h0, h1, hne, if_false, hs1, hs2]
    by_cases hgt : op = ">".toList
    · simp only [hgt, if_true, STDOUT_FILENO, Bool.false_eq_true, if_false]
      cases vsh_execute_fuel sys self fuel (pre ++ post) env <;> rfl
    · simp only [hgt, if_false, STDOUT_FILENO, STDIN_FILENO, Nat.zero_ne_one, Bool.false_eq_true]
      cases vsh_execute_fuel sys self fuel (pre ++ post) env <;> rfl

theorem vsh_execute_fuel_double (sys : Sys) (self : Proc) (fuel : Nat)
    (pre : List CString) (path : CString) (post : List CString) (env : Env)
    (hpre : ∀ t ∈ pre, is_redirect t = false) :
    vsh_execute_fuel sys self (fuel + 1)
        (pre ++ ">".toList :: ">".toList :: path :: post) env =
      (vsh_execute_fuel sys self fuel (pre ++ post) env).map
        (fun r => (open_events sys self (some path) OpenMode.write_append ++ r.1, r.2)) := by
  have hop : is_redirect ">".toList = true := by decide
  have hs1 : vsh_shift_util_null (pre ++ ">".toList :: ">".toList :: path :: post) pre.length
      = pre ++ ">".toList :: path :: post :=
    vsh_shift_util_null_append pre _ _
  have hs2 : vsh_shift_util_null (pre ++ ">".toList :: path :: post) pre.length
      = pre ++ path :: post :=
    vsh_shift_util_null_append pre _ _
  have hs3 : vsh_shift_util_null (pre ++ path :: post) pre.length = pre ++ post :=
    vsh_shift_util_null_append pre _ _
  have hh := vsh_has_redirect_append pre _ (">".toList :: path :: post) hpre hop
  have h0 := getElem?_append_first pre ">".toList (">".toList :: path :: post)
  have h1 := getElem?_append_second pre ">".toList ">".toList (path :: post)
  have h2 := getElem?_append_third pre ">".toList ">".toList path post
  generalize pre ++ ">".toList :: ">".toList :: path :: post = args at hh h0 h1 h2 hs1
  cases args with
  | nil => simp [vsh_has_redirect] at hh
  | cons a rest =>
    simp only [vsh_execute_fuel, hh, h0, h1, h2, if_true, hs1, hs2, hs3, STDOUT_FILENO]
    cases vsh_execute_fuel sys self fuel (pre ++ post) env <;> rfl

theorem vsh_shift_util_null_length_le (l : List CString) (k : Nat) :
    (vsh_shift_util_null l k).length ≤ l.length := by
  induction l generalizing k with
  | nil => simp [vsh_shift_util_null]
  | cons a rest ih =>
    cases k with
    | zero => simp [vsh_shift_util_null]
    | succ j =>
      simp only [vsh_shift_util_null, List.length_cons]
      have := ih j
      omega

theorem vsh_shift_util_null_length_lt (l : List CString) (k : Nat) (x : CString)
    (h : l[k]? = some x) : (vsh_shift_util_null l k).length < l.length := by
  induction l generalizing k with
  | nil => simp at h
  | cons a rest ih =>
    cases k with
    | zero => simp [vsh_shift_util_null]
    | succ j =>
      simp only [vsh_shift_util_null, List.length_cons]
      have := ih j (by simpa using h)
      omega

/-- The recursion of `vsh_execute` ends: with more levels than the vector has
entries a result is always produced. -/
theorem vsh_execute_fuel_isSome (sys : Sys) (self : Proc) (env : Env) :
    ∀ (fuel : Nat) (args : List CString), args.length < fuel →
      (vsh_execute_fuel sys self fuel args env).isSome = true := by
  intro fuel
  induction fuel with
  | zero => intro args h; omega
  | succ fuel ih =>
    intro args hlen
    cases args with
    | nil => rfl
    | cons a rest =>
      simp only [vsh_execute_fuel]
      split
      · rename_i red_pos hred
        split
        · rename_i op next h0 h1
          have hl1 := vsh_shift_util_null_length_lt (a :: rest) red_pos op h0
          have hl2 := vsh_shift_util_null_length_le (vsh_shift_util_null (a :: rest) red_pos) red_pos
          have hl3 := vsh_shift_util_null_length_le
            (vsh_shift_util_null (vsh_shift_util_null (a :: rest) red_pos) red_pos) red_pos
          split
          · rfl
          · rename_i append red_fd hsel
            have hrec := ih (if append = true then
                vsh_shift_util_null
                  (vsh_shift_util_null (vsh_shift_util_null (a :: rest) red_pos) red_pos) red_pos
              else vsh_shift_util_null (vsh_shift_util_null (a :: rest) red_pos) red_pos)
              (by split <;> omega)
            split
            · rename_i hnone
              rw [hnone] at hrec
              exact Bool.noConfusion hrec
            · rfl
        · rfl
      · split <;> rfl

/-- On a vector with well-formed redirections `vsh_execute` makes its `open`
calls and then does, with the stripped vector, what it does with a vector
without redirection. -/
theorem vsh_execute_fuel_wellformed (sys : Sys) (self : Proc) (env : Env) :
    ∀ (fuel : Nat) (args : List CString), args.length < fuel →
      redirs_wellformed args = true →
      ∃ opened : List Event, (∀ e ∈ opened, is_open_report e = true) ∧
        vsh_execute_fuel sys self fuel args env =
          some (opened ++ (vsh_execute_plain self (strip_redirs args) env).1,
            (vsh_execute_plain self (strip_redirs args) env).2) := by
  intro fuel
  induction fuel with
  | zero => intro args h; omega
  | succ fuel ih =>
    intro args hlen hw
    rcases exists_first_redirect args with hnone | ⟨pre, op, post, rfl, hpre, hop⟩
    · refine ⟨[], by simp, ?_⟩
      rw [vsh_execute_fuel_plain sys self fuel args env hnone, strip_redirs_of_none args hnone]
      rfl
    · rw [redirs_wellformed_append pre _ hpre] at hw
      rw [strip_redirs_append pre _ hpre]
      cases post with
      | nil => simp [redirs_wellformed_dangling op hop] at hw
      | cons n post =>
        by_cases hn : is_redirect n = true
        · rw [redirs_wellformed_cons_double op n post hop hn] at hw
          cases post with
          | nil => simp at hw
          | cons path post =>
            simp only [Bool.and_eq_true, decide_eq_true_eq, Bool.not_eq_true'] at hw
            obtain ⟨⟨rfl, rfl⟩, _, hw2⟩ := hw
            have hlen2 : (pre ++ post).length < fuel := by
              simp only [List.length_append, List.length_cons] at hlen ⊢
              omega
            obtain ⟨opened, hrep, heq⟩ :=
              ih (pre ++ post) hlen2 (by rw [redirs_wellformed_append pre _ hpre]; exact hw2)
            rw [strip_redirs_append pre _ hpre] at heq
            refine ⟨open_events sys self (some path) OpenMode.write_append ++ opened, ?_, ?_⟩
            · intro e he
              rcases List.mem_append.mp he with he | he
              · exact open_events_report _ _ _ _ e he
              · exact hrep e he
            · rw [vsh_execute_fuel_double sys self fuel pre path post env hpre, heq,
                strip_redirs_cons_double _ _ path post hop hn]
              simp
        · have hn2 : is_redirect n = false := by simpa using hn
          rw [redirs_wellformed_cons_single op n post hop hn2] at hw
          have hlen2 : (pre ++ post).length < fuel := by
            simp only [List.length_append, List.length_cons] at hlen ⊢
            omega
          obtain ⟨opened, hrep, heq⟩ :=
            ih (pre ++ post) hlen2 (by rw [redirs_wellformed_append pre _ hpre]; exact hw)
          rw [strip_redirs_append pre _ hpre] at heq
          refine ⟨open_events sys self (some n)
            (if op = ">".toList then OpenMode.write_trunc else OpenMode.read_only) ++ opened,
            ?_, ?_⟩
          · intro e he
            rcases List.mem_append.mp he with he | he
            · exact open_events_report _ _ _ _ e he
            · exact hrep e he
          · rw [vsh_execute_fuel_single sys self fuel pre op n post env hpre hop hn2, heq,
              strip_redirs_cons_single op n post hop hn2]
            simp

theorem vsh_execute_wellformed (sys : Sys) (self : Proc) (env : Env) (args : List CString)
    (hw : redirs_wellformed args = true) :
    ∃ opened : List Event, (∀ e ∈ opened, is_open_report e = true) ∧
      vsh_execute sys self args env =
        (opened ++ (vsh_execute_plain self (strip_redirs args) env).1,
          (vsh_execute_plain self (strip_redirs args) env).2) := by
  obtain ⟨opened, hrep, heq⟩ :=
    vsh_execute_fuel_wellformed sys self env (args.length + 1) args (Nat.lt_succ_self _) hw
  exact ⟨opened, hrep, by simp [vsh_execute, heq]⟩

theorem handed_vectors_append (a b : List Event) :
    handed_vectors (a ++ b) = handed_vectors a ++ handed_vectors b := by
  simp [handed_vectors, List.filterMap_append]

theorem handed_vectors_of_open_reports (opened : List Event)
    (h : ∀ e ∈ opened, is_open_report e = true) : handed_vectors opened = [] := by
  induction opened with
  | nil => rfl
  | cons e rest ih =>
    have he := h e (by simp)
    have hr := ih (fun x hx => h x (by simp [hx]))
    cases e <;> simp_all [handed_vectors, is_open_report]

theorem handed_vectors_exec_builtin (self : Proc) (args : List CString) (env : Env) :
    handed_vectors (vsh_exec_builtin self args env).1 = [] := by
  unfold vsh_exec_builtin
  repeat' split
  all_goals rfl

theorem handed_vectors_execute_plain (self : Proc) (args : List CString) (env : Env) :
    handed_vectors (vsh_execute_plain self args env).1 = if args = [] then [] else [args] := by
  cases args with
  | nil => rfl
  | cons a rest =>
    have hb := handed_vectors_exec_builtin self (a :: rest) env
    simp only [vsh_execute_plain]
    by_cases h : vsh_is_builtin (a :: rest) = true
    · simp only [h, if_true]
      simp only [handed_vectors, List.filterMap_cons] at hb ⊢
      simp [hb]
    · simp [h, handed_vectors]

/-- C3: for a vector in which every redirection operator is followed by a path
token, the vector that `vsh_execute` hands to `vsh_exec_builtin` or `execvp` is
the original one with every operator and its path removed (nothing is handed
when nothing remains), and it contains neither `>` nor `<`. -/
theorem C3_execute_hands_stripped_vector (sys : Sys) (self : Proc) (env : Env)
    (args : List CString) (hw : redirs_wellformed args = true) :
    handed_vectors (vsh_execute sys self args env).1 =
        (if strip_redirs args = [] then [] else [strip_redirs args])
      ∧ (∀ v ∈ handed_vectors (vsh_execute sys self args env).1,
          ">".toList ∉ v ∧ "<".toList ∉ v) := by
  obtain ⟨opened, hrep, heq⟩ := vsh_execute_wellformed sys self env args hw
  have h1 : handed_vectors (vsh_execute sys self args env).1 =
      (if strip_redirs args = [] then [] else [strip_redirs args]) := by
    rw [heq, handed_vectors_append, handed_vectors_of_open_reports opened hrep,
      handed_vectors_execute_plain]
    simp
  refine ⟨h1, ?_⟩
  intro v hv
  rw [h1] at hv
  have hno := strip_redirs_no_redirect (args.length + 1) args (Nat.lt_succ_self _) hw
  split at hv
  · simp at hv
  · simp only [List.mem_singleton] at hv
    subst hv
    constructor
    · intro hm
      have := hno _ hm
      exact absurd this (by decide)
    · intro hm
      have := hno _ hm
      exact absurd this (by decide)

/-- C3, at `a > > f b < g` with every file opening: the vector handed to
`execvp` is `a b`. -/
theorem C3_execute_hands_stripped_vector_witness :
    redirs_wellformed ["a".toList, ">".toList, ">".toList, "f".toList, "b".toList,
        "<".toList, "g".toList] = true
      ∧ handed_vectors (vsh_execute sys_all_ok Proc.shell
          ["a".toList, ">".toList, ">".toList, "f".toList, "b".toList, "<".toList, "g".toList]
          []).1 = [["a".toList, "b".toList]] :=
  ⟨by decide,
    (C3_execute_hands_stripped_vector sys_all_ok Proc.shell []
      ["a".toList, ">".toList, ">".toList, "f".toList, "b".toList, "<".toList, "g".toList]
      (by decide)).1⟩

/-! ## Main loop, open failure, pipeline: the code at concrete inputs -/

/-- C5 (code as it is): for `cat < nofile`, when `open` fails, `vsh_execute`
reports `open file` and then still reaches `execvp` with the vector `cat`. -/
theorem C5_open_failure_still_launches :
    vsh_execute sys_open_fails (Proc.run_child Proc.shell)
        ["cat".toList, "<".toList, "nofile".toList] []
      = ([Event.open_file (Proc.run_child Proc.shell) (some "nofile".toList)
            OpenMode.read_only false,
          Event.perror (Proc.run_child Proc.shell) "open file",
          Event.execvp (Proc.run_child Proc.shell) ["cat".toList]],
         Outcome.execed ["cat".toList]) := by
  decide

/-- C9 (code as it is): in `cd | ls | wc` the child forked for stage 0 runs the
builtin, `vsh_execute` returns, and the child goes on: it forks a process for
stage 1 and itself executes stage 2. Stages 1 and 2 are executed twice. -/
theorem C9_stage_child_runs_later_stages :
    (vsh_pipeline sys_terminal [["cd".toList], ["ls".toList], ["wc".toList]] 0 STDIN_FILENO
        (Proc.run_child Proc.shell) []).1
      = [Event.fork (Proc.run_child Proc.shell)
            (Proc.stage_child (Proc.run_child Proc.shell) 0),
          Event.exec_builtin (Proc.stage_child (Proc.run_child Proc.shell) 0) ["cd".toList],
          Event.fork (Proc.stage_child (Proc.run_child Proc.shell) 0)
            (Proc.stage_child (Proc.stage_child (Proc.run_child Proc.shell) 0) 1),
          Event.execvp (Proc.stage_child (Proc.stage_child (Proc.run_child Proc.shell) 0) 1)
            ["ls".toList],
          Event.execvp (Proc.stage_child (Proc.run_child Proc.shell) 0) ["wc".toList],
          Event.fork (Proc.run_child Proc.shell)
            (Proc.stage_child (Proc.run_child Proc.shell) 1),
          Event.execvp (Proc.stage_child (Proc.run_child Proc.shell) 1) ["ls".toList],
          Event.execvp (Proc.run_child Proc.shell) ["wc".toList]] := by
  decide

/-- C6 (counterexample): in the two-stage pipeline `cd | ls` the stage `cd` is
dispatched to `vsh_exec_builtin`, in the child forked for stage 0. -/
theorem C6_builtin_dispatched_inside_pipeline :
    vsh_parse_args ["cd".toList, "|".toList, "ls".toList]
        = some [["cd".toList], ["ls".toList]]
      ∧ Event.exec_builtin (Proc.stage_child (Proc.run_child Proc.shell) 0) ["cd".toList]
          ∈ (vsh_run sys_terminal ["cd".toList, "|".toList, "ls".toList] []).1 := by
  decide

/-- C8 (counterexample): for the argument `=v` the part before the first `=` is
empty, `setenv` rejects the name, and no variable has the value `v`
afterwards. -/
theorem C8_export_empty_name_sets_nothing :
    vsh_exec_builtin Proc.shell ["export".toList, "=v".toList] []
        = ([], Outcome.returned 0 [])
      ∧ getenv [] [] ≠ some "v".toList := by
  decide

/-! ## The `export` builtin -/

theorem strchr_none_of_not_mem (c : Char) (s : CString) (h : c ∉ s) : strchr s c = none := by
  induction s with
  | nil => rfl
  | cons x xs ih =>
    have hx : x ≠ c := fun e => h (by simp [e])
    have hxs : c ∉ xs := fun e => h (by simp [e])
    simp [strchr, hx, ih hxs]

theorem strchr_of_mem (c : Char) (s : CString) (h : c ∈ s) :
    ∃ k, strchr s c = some k ∧ s.take k = s.takeWhile (fun x => decide (x ≠ c))
      ∧ s.drop (k + 1) = (s.dropWhile (fun x => decide (x ≠ c))).tail := by
  induction s with
  | nil => simp at h
  | cons x xs ih =>
    by_cases hx : x = c
    · exact ⟨0, by simp [strchr, hx], by simp [List.takeWhile_cons, hx],
        by simp [List.dropWhile_cons, hx]⟩
    · have hm : c ∈ xs := by
        rcases List.mem_cons.mp h with e | e
        · exact absurd e.symm hx
        · exact e
      obtain ⟨k, hk, ht, hd⟩ := ih hm
      refine ⟨k + 1, by simp [strchr, hx, hk], ?_, ?_⟩
      · simp [List.takeWhile_cons, hx, ht]
      · simp [List.dropWhile_cons, hx, hd]

theorem getenv_cons (e : CString × CString) (env : Env) (n : CString) :
    getenv (e :: env) n = if e.1 = n then some e.2 else getenv env n := by
  by_cases h : e.1 = n <;> simp [getenv, List.find?_cons, h]

theorem getenv_replace_same (env : Env) (name value : CString)
    (h : env.any (fun e => decide (e.1 = name)) = true) :
    getenv (env.map (fun e => if e.1 = name then (name, value) else e)) name = some value := by
  induction env with
  | nil => simp at h
  | cons e rest ih =>
    rw [List.map_cons, getenv_cons]
    by_cases he : e.1 = name
    · simp [he]
    · simp only [he, if_false]
      apply ih
      simpa [he] using h

theorem getenv_replace_other (env : Env) (name value other : CString) (h : other ≠ name) :
    getenv (env.map (fun e => if e.1 = name then (name, value) else e)) other
      = getenv env other := by
  induction env with
  | nil => rfl
  | cons e rest ih =>
    rw [List.map_cons, getenv_cons, getenv_cons, ih]
    by_cases he : e.1 = name
    · have h1 : ¬ name = other := fun x => h x.symm
      have h2 : ¬ e.1 = other := fun x => h (by rw [← x, he])
      simp [he, h1, h2]
    · simp [he]

theorem getenv_append_same (env : Env) (name value : CString)
    (h : ¬ env.any (fun e => decide (e.1 = name)) = true) :
    getenv (env ++ [(name, value)]) name = some value := by
  induction env with
  | nil => simp [getenv]
  | cons e rest ih =>
    rw [List.cons_append, getenv_cons]
    have he : ¬ e.1 = name := by
      intro x
      apply h
      simp [x]
    simp only [he, if_false]
    apply ih
    intro x
    apply h
    simp only [List.any_cons, Bool.or_eq_true]
    exact Or.inr x

theorem getenv_append_other (env : Env) (name value other : CString) (h : other ≠ name) :
    getenv (env ++ [(name, value)]) other = getenv env other := by
  induction env with
  | nil =>
    have h1 : ¬ name = other := fun x => h x.symm
    simp [getenv, h1]
  | cons e rest ih =>
    rw [List.cons_append, getenv_cons, getenv_cons, ih]

theorem getenv_setenv_same (env : Env) (name value : CString)
    (h1 : name ≠ []) (h2 : '=' ∉ name) : getenv (setenv env name value) name = some value := by
  unfold setenv
  rw [if_neg (by simp [h1, h2])]
  split
  · rename_i hany
    exact getenv_replace_same env name value hany
  · rename_i hany
    exact getenv_append_same env name value hany

theorem getenv_setenv_other (env : Env) (name value other : CString) (h : other ≠ name) :
    getenv (setenv env name value) other = getenv env other := by
  unfold setenv
  split
  · rfl
  · split
    · exact getenv_replace_other env name value other h
    · exact getenv_append_other env name value other h

/-- C8 (amended): for `export s`: when `s` contains `=` but does not begin with
it, the variable named by the part of `s` before the first `=` gets the part
after the first `=` as its value, every other variable is unchanged and the
result is 0; when `s` begins with `=` (the name is empty, `setenv` fails) or has
no `=`, the environment is unchanged and the result is 0. -/
theorem C8_export_sets_named_variable (self : Proc) (env : Env) (s : CString) :
    ('=' ∈ s → s.head? ≠ some '=' →
        ∃ env1, vsh_exec_builtin self ["export".toList, s] env = ([], Outcome.returned 0 env1)
          ∧ getenv env1 (s.takeWhile (fun x => decide (x ≠ '=')))
              = some (s.dropWhile (fun x => decide (x ≠ '='))).tail
          ∧ ∀ other, other ≠ s.takeWhile (fun x => decide (x ≠ '=')) →
              getenv env1 other = getenv env other)
      ∧ (s.head? = some '=' →
          vsh_exec_builtin self ["export".toList, s] env = ([], Outcome.returned 0 env))
      ∧ ('=' ∉ s →
          vsh_exec_builtin self ["export".toList, s] env = ([], Outcome.returned 0 env)) := by
  have hname : ("export".toList = "cd".toList) = False := by decide
  have hname2 : ("export".toList = "pwd".toList) = False := by decide
  have hname3 : ("export".toList = "exit".toList) = False := by decide
  have hunf : vsh_exec_builtin self ["export".toList, s] env =
      match strchr s '=' with
      | none => ([], Outcome.returned 0 env)
      | some eq => ([], Outcome.returned 0 (setenv env (s.take eq) (s.drop (eq + 1)))) := by
    simp only [vsh_exec_builtin, hname, hname2, hname3, if_false, if_true]
  refine ⟨?_, ?_, ?_⟩
  · intro hmem hhead
    obtain ⟨k, hk, ht, hd⟩ := strchr_of_mem '=' s hmem
    rw [hunf, hk]
    simp only
    rw [ht, hd]
    have hne : s.takeWhile (fun x => decide (x ≠ '=')) ≠ [] := by
      cases s with
      | nil => simp at hmem
      | cons x xs =>
        have hx : x ≠ '=' := by simpa using hhead
        simp [List.takeWhile_cons, hx]
    have hnoeq : '=' ∉ s.takeWhile (fun x => decide (x ≠ '=')) := by
      intro hm
      have := List.mem_takeWhile_imp hm
      simp at this
    exact ⟨_, rfl, getenv_setenv_same env _ _ hne hnoeq,
      fun other ho => getenv_setenv_other env _ _ other ho⟩
  · intro hhead
    cases s with
    | nil => simp at hhead
    | cons x xs =>
      have hx : x = '=' := by simpa using hhead
      rw [hunf]
      simp [strchr, hx, setenv]
  · intro hno
    rw [hunf, strchr_none_of_not_mem '=' s hno]

/-! ## Builtin dispatch -/

theorem vsh_exec_builtin_events (self : Proc) (args : List CString) (env : Env) :
    ∀ e ∈ (vsh_exec_builtin self args env).1,
      is_builtin_dispatch e = false ∧ is_execvp e = false := by
  unfold vsh_exec_builtin
  repeat' split
  all_goals simp [is_builtin_dispatch, is_execvp]

theorem open_reports_any (opened : List Event) (h : ∀ e ∈ opened, is_open_report e = true) :
    opened.any is_builtin_dispatch = false ∧ opened.any is_execvp = false := by
  induction opened with
  | nil => simp
  | cons e rest ih =>
    have he := h e (by simp)
    have hr := ih (fun x hx => h x (by simp [hx]))
    cases e <;> simp_all [is_builtin_dispatch, is_execvp, is_open_report]

theorem vsh_is_builtin_ne_nil (v : List CString) (h : vsh_is_builtin v = true) : v ≠ [] := by
  intro e
  rw [e] at h
  exact Bool.noConfusion h

theorem vsh_execute_dispatch (sys : Sys) (self : Proc) (env : Env) (stage : List CString)
    (hw : redirs_wellformed stage = true) :
    (vsh_execute sys self stage env).1.any is_builtin_dispatch
        = vsh_is_builtin (strip_redirs stage)
      ∧ (vsh_execute sys self stage env).1.any is_execvp
        = (!(strip_redirs stage).isEmpty && !vsh_is_builtin (strip_redirs stage))
      ∧ (strip_redirs stage = [] → (vsh_execute sys self stage env).2 = Outcome.returned 0 env) := by
  obtain ⟨opened, hrep, heq⟩ := vsh_execute_wellformed sys self env stage hw
  obtain ⟨ho1, ho2⟩ := open_reports_any opened hrep
  rw [heq]
  simp only [List.any_append, ho1, ho2, Bool.false_or]
  cases hv : strip_redirs stage with
  | nil => simp [vsh_execute_plain, vsh_is_builtin]
  | cons a rest =>
    simp only [vsh_execute_plain]
    have hb := vsh_exec_builtin_events self (a :: rest) env
    have hb1 : (vsh_exec_builtin self (a :: rest) env).1.any is_builtin_dispatch = false := by
      rw [List.any_eq_false]
      intro e he
      simp [(hb e he).1]
    have hb2 : (vsh_exec_builtin self (a :: rest) env).1.any is_execvp = false := by
      rw [List.any_eq_false]
      intro e he
      simp [(hb e he).2]
    by_cases h : vsh_is_builtin (a :: rest) = true
    · simp only [h, if_true, List.any_cons, hb1, hb2]
      simp [is_builtin_dispatch, is_execvp]
    · have h2 : vsh_is_builtin (a :: rest) = false := by simpa using h
      simp [h2, is_builtin_dispatch, is_execvp]

theorem vsh_execute_builtin_mem (sys : Sys) (self : Proc) (env : Env) (stage : List CString)
    (hw : redirs_wellformed stage = true) (hb : vsh_is_builtin (strip_redirs stage) = true) :
    Event.exec_builtin self (strip_redirs stage) ∈ (vsh_execute sys self stage env).1 := by
  obtain ⟨opened, _, heq⟩ := vsh_execute_wellformed sys self env stage hw
  rw [heq]
  cases hv : strip_redirs stage with
  | nil => exact absurd hv (vsh_is_builtin_ne_nil _ hb)
  | cons a rest =>
    rw [hv] at hb
    simp [vsh_execute_plain, hb]

theorem vsh_exec_builtin_outcome (self : Proc) (v : List CString) (env : Env)
    (hb : vsh_is_builtin v = true) (hx : v ≠ ["export".toList]) :
    (∃ ret env1, (vsh_exec_builtin self v env).2 = Outcome.returned ret env1)
      ∨ has_ended (vsh_exec_builtin self v env).2 = true := by
  cases v with
  | nil => exact absurd hb (by simp [vsh_is_builtin])
  | cons a0 rest =>
    unfold vsh_exec_builtin
    by_cases h1 : a0 = "cd".toList
    · simp only [h1, if_true]
      cases rest <;> exact Or.inl ⟨_, _, rfl⟩
    · by_cases h2 : a0 = "pwd".toList
      · simp only [h1, h2, if_true, if_false]
        exact Or.inl ⟨_, _, rfl⟩
      · by_cases h3 : a0 = "exit".toList
        · simp only [h1, h2, h3, if_true, if_false]
          exact Or.inr rfl
        · by_cases h4 : a0 = "export".toList
          · simp only [h1, h2, h3, h4, if_true, if_false]
            cases rest with
            | nil => exact absurd (by rw [h4]) hx
            | cons cmd more =>
              simp only
              cases strchr cmd '=' <;> exact Or.inl ⟨_, _, rfl⟩
          · simp only [h1, h2, h3, h4, if_false]
            exact Or.inl ⟨_, _, rfl⟩

/-- On a stage whose behaviour is defined `vsh_execute` returns, or ends the
process by `exit`, `_exit` or `execvp`. -/
theorem vsh_execute_defined_outcome (sys : Sys) (self : Proc) (env : Env)
    (stage : List CString) (hd : stage_defined stage = true) :
    (∃ ret env1, (vsh_execute sys self stage env).2 = Outcome.returned ret env1)
      ∨ has_ended (vsh_execute sys self stage env).2 = true := by
  simp only [stage_defined, Bool.and_eq_true, decide_eq_true_eq] at hd
  obtain ⟨hw, hx⟩ := hd
  obtain ⟨opened, _, heq⟩ := vsh_execute_wellformed sys self env stage hw
  rw [heq]
  cases hv : strip_redirs stage with
  | nil => exact Or.inl ⟨_, _, rfl⟩
  | cons a rest =>
    rw [hv] at hx
    simp only [vsh_execute_plain]
    by_cases h : vsh_is_builtin (a :: rest) = true
    · simp only [h, if_true]
      exact vsh_exec_builtin_outcome self (a :: rest) env h hx
    · have h2 : vsh_is_builtin (a :: rest) = false := by simpa using h
      simp only [h2, Bool.false_eq_true, if_false]
      exact Or.inr rfl

theorem waitpid_blocks_of_ended (sys : Sys) (hends : ∀ p a, sys.exec_ends p a = true)
    (child : Proc) (out : Outcome) (h : has_ended out = true) :
    waitpid_blocks sys child out = none := by
  cases out <;> simp_all [waitpid_blocks, has_ended]

theorem stage_child_block_outcome (sys : Sys) (child : Proc) (cur in_fd p1 : Nat)
    (args : List CString) (env : Env) (hd : stage_defined args = true) :
    (∃ ret env1, (stage_child_block sys child cur in_fd p1 args env).2
        = Outcome.returned ret env1)
      ∨ has_ended (stage_child_block sys child cur in_fd p1 args env).2 = true := by
  simp only [stage_child_block]
  split
  · exact Or.inl ⟨_, _, rfl⟩
  · split
    · exact Or.inl ⟨_, _, rfl⟩
    · exact vsh_execute_defined_outcome sys child env args hd

theorem after_fork_ended (sys : Sys) (hends : ∀ p a, sys.exec_ends p a = true)
    (self child : Proc) (in_child : List Event × Outcome)
    (child_later : Env → List Event × Outcome) (parent_rest : List Event × Outcome)
    (hin : (∃ ret env1, in_child.2 = Outcome.returned ret env1) ∨ has_ended in_child.2 = true)
    (hlater : ∀ env1, has_ended (child_later env1).2 = true) :
    after_fork sys self child in_child child_later parent_rest =
      (Event.fork self child ::
          (match in_child.2 with
            | Outcome.returned _ env1 => in_child.1 ++ (child_later env1).1
            | _ => in_child.1) ++ parent_rest.1,
        parent_rest.2) := by
  unfold after_fork
  rcases hin with ⟨ret, env1, hr⟩ | he
  · simp only [hr]
    rw [waitpid_blocks_of_ended sys hends child _ (hlater env1)]
  · cases hout : in_child.2 with
    | returned ret env1 => rw [hout] at he; exact absurd he (by simp [has_ended])
    | exited st => simp [waitpid_blocks]
    | execed a => simp [waitpid_blocks, hends]
    | blocked => rw [hout] at he; exact absurd he (by simp [has_ended])
    | undefined => rw [hout] at he; exact absurd he (by simp [has_ended])

/-- When every program that is started comes to an end and every stage has a
defined behaviour, the process that runs `vsh_pipeline` ends by `exit`, `_exit`
or `execvp`: it is never left in `waitpid`. -/
theorem vsh_pipeline_from_ends (sys : Sys) (hends : ∀ p a, sys.exec_ends p a = true) :
    ∀ (rest : List (List CString)), rest ≠ [] →
      (∀ stage ∈ rest, stage_defined stage = true) →
      ∀ (cur in_fd : Nat) (self : Proc) (env : Env),
        has_ended (vsh_pipeline_from sys rest cur in_fd self env).2 = true := by
  intro rest
  induction rest with
  | nil => intro h; exact absurd rfl h
  | cons args more ih =>
    intro _ hdef cur in_fd self env
    have hargs : stage_defined args = true := hdef args (by simp)
    cases more with
    | nil =>
      simp only [vsh_pipeline_from]
      split
      · rfl
      · rcases vsh_execute_defined_outcome sys self env args hargs with ⟨ret, env1, hr⟩ | he
        · rw [hr]
          rfl
        · cases hout : (vsh_execute sys self args env).2 <;> rw [hout] at he <;>
            simp_all [has_ended, vsh_error_exit]
    | cons next more =>
      have hrest : ∀ stage ∈ next :: more, stage_defined stage = true :=
        fun stage hs => hdef stage (List.mem_cons_of_mem _ hs)
      have ih2 := ih (by simp) hrest
      simp only [vsh_pipeline_from]
      cases hpipe : sys.pipe self cur with
      | none => rfl
      | some pp =>
        obtain ⟨p0, p1⟩ := pp
        simp only
        by_cases hfork : sys.fork_ok self cur = false
        · simp only [hfork, if_true]
          rfl
        · simp only [hfork, if_false]
          rw [after_fork_ended sys hends _ _ _ _ _
            (stage_child_block_outcome sys _ cur in_fd p1 args env hargs)
            (fun env1 => ih2 _ _ _ _)]
          exact ih2 _ _ _ _

theorem stage_child_block_builtin_mem (sys : Sys) (child : Proc) (cur in_fd p1 : Nat)
    (args : List CString) (env : Env)
    (hout : sys.dup2_ok child cur p1 STDOUT_FILENO = true)
    (hclose : sys.close_ok child cur p1 = true)
    (hw : redirs_wellformed args = true) (hb : vsh_is_builtin (strip_redirs args) = true) :
    Event.exec_builtin child (strip_redirs args)
      ∈ (stage_child_block sys child cur in_fd p1 args env).1 := by
  simp only [stage_child_block, hout, hclose, Bool.true_eq_false, if_false]
  exact List.mem_append_right _ (vsh_execute_builtin_mem sys child env args hw hb)

/-- When the calls of the pipeline process succeed, every program that is
started comes to an end and every stage has a defined behaviour, each stage
whose stripped vector begins with a builtin name is dispatched to
`vsh_exec_builtin`: in the child forked for it, or in the process itself when
it is the last stage. -/
theorem vsh_pipeline_from_builtin_mem (sys : Sys) (self : Proc) (hok : calls_succeed sys self)
    (hends : ∀ p a, sys.exec_ends p a = true) :
    ∀ (rest : List (List CString)) (cur in_fd : Nat) (env : Env) (i : Nat)
      (stage : List CString), (∀ st ∈ rest, stage_defined st = true) →
      rest[i]? = some stage →
      vsh_is_builtin (strip_redirs stage) = true →
      Event.exec_builtin (if i + 1 < rest.length then Proc.stage_child self (cur + i) else self)
          (strip_redirs stage)
        ∈ (vsh_pipeline_from sys rest cur in_fd self env).1 := by
  intro rest
  induction rest with
  | nil => intro cur in_fd env i stage _ h; simp at h
  | cons args more ih =>
    intro cur in_fd env i stage hdef hi hb
    obtain ⟨⟨p0, p1, hpipe⟩, hfork, hout, hclose, hin⟩ := hok cur
    have hargs : stage_defined args = true := hdef args (by simp)
    cases more with
    | nil =>
      cases i with
      | succ j => simp at hi
      | zero =>
        simp only [List.getElem?_cons_zero, Option.some.injEq] at hi
        subst hi
        have hw : redirs_wellformed args = true := by
          simp only [stage_defined, Bool.and_eq_true] at hargs
          exact hargs.1
        have hmem := vsh_execute_builtin_mem sys self env args hw hb
        simp only [vsh_pipeline_from, hin, Bool.true_eq_false, and_false, if_false,
          List.length_cons, List.length_nil]
        split <;> simp [hmem]
    | cons next more =>
      have hrest : ∀ st ∈ next :: more, stage_defined st = true :=
        fun st hs => hdef st (List.mem_cons_of_mem _ hs)
      simp only [vsh_pipeline_from, hpipe, hfork, Bool.true_eq_false, if_false]
      rw [after_fork_ended sys hends _ _ _ _ _
        (stage_child_block_outcome sys _ cur in_fd p1 args env hargs)
        (fun env1 => vsh_pipeline_from_ends sys hends (next :: more) (by simp) hrest _ _ _ _)]
      cases i with
      | zero =>
        simp only [List.getElem?_cons_zero, Option.some.injEq] at hi
        subst hi
        have hw : redirs_wellformed args = true := by
          simp only [stage_defined, Bool.and_eq_true] at hargs
          exact hargs.1
        have hmem := stage_child_block_builtin_mem sys (Proc.stage_child self cur) cur in_fd p1
          args env (hout p1) (hclose p1) hw hb
        have hc : 0 + 1 < more.length + 1 + 1 := by omega
        simp only [List.length_cons, Nat.add_zero, hc, if_true]
        refine List.mem_cons_of_mem _ (List.mem_append_left _ ?_)
        split
        · exact List.mem_append_left _ hmem
        · exact hmem
      | succ j =>
        simp only [List.getElem?_cons_succ] at hi
        have := ih (cur + 1) p0 env j stage hrest hi hb
        simp only [List.length_cons] at this ⊢
        have hcond : (j + 1 + 1 < more.length + 1 + 1) ↔ (j + 1 < more.length + 1) := by omega
        have hidx : cur + (j + 1) = cur + 1 + j := by omega
        simp only [hcond, hidx]
        exact List.mem_cons_of_mem _ (List.mem_append_right _ this)

theorem calls_succeed_sys_terminal : calls_succeed sys_terminal (Proc.run_child Proc.shell) := by
  intro cur
  refine ⟨?_, rfl, ?_, fun _ => rfl, ?_⟩
  · by_cases h : cur = 0
    · exact ⟨3, 4, by simp [sys_terminal, h]⟩
    · exact ⟨0, 4, by simp [sys_terminal, h]⟩
  · intro fd
    simp [sys_terminal]
    omega
  · intro fd
    simp [sys_terminal]

/-- C6 (amended): for a non-empty token sequence that `vsh_parse_args` parses
into `argss`, whether a stage is dispatched to `vsh_exec_builtin` depends only
on the first token of its vector once redirections are removed, not on the
number of stages.  For a stage with well-formed redirections `vsh_execute` calls
`vsh_exec_builtin` when that token is a builtin name, calls `execvp` when that
token exists and is not a builtin name, and returns 0 doing neither when nothing
remains.  The number of stages decides the process: a pipeline of exactly one
stage whose first token is a builtin name is executed by `vsh_run` in the shell
itself; any other pipeline is run by `vsh_pipeline` in a forked process.  There,
when the calls of the pipeline process succeed, every program that is started
comes to an end (each `waitpid` returns) and every stage has a defined
behaviour, every stage whose stripped vector begins with a builtin name is
dispatched to `vsh_exec_builtin`: in the child forked for it when it is not the
last stage, in the pipeline process when it is. -/
theorem C6_builtin_dispatch_by_first_token (sys : Sys) (env : Env) (ts : List CString)
    (argss : List (List CString)) (hts : ts ≠ []) (hparse : vsh_parse_args ts = some argss) :
    (∀ (self : Proc) (stage : List CString), redirs_wellformed stage = true →
        (vsh_execute sys self stage env).1.any is_builtin_dispatch
            = vsh_is_builtin (strip_redirs stage)
          ∧ (vsh_execute sys self stage env).1.any is_execvp
            = (!(strip_redirs stage).isEmpty && !vsh_is_builtin (strip_redirs stage))
          ∧ (strip_redirs stage = [] →
              (vsh_execute sys self stage env).2 = Outcome.returned 0 env))
      ∧ (argss.length = 1 ∧ vsh_is_builtin (argss.headD []) = true →
          vsh_run sys ts env = vsh_execute sys Proc.shell (argss.headD []) env)
      ∧ (¬ (argss.length = 1 ∧ vsh_is_builtin (argss.headD []) = true) →
          sys.run_fork_ok = true →
          (vsh_run sys ts env).1 = Event.fork Proc.shell (Proc.run_child Proc.shell) ::
              (vsh_pipeline sys argss 0 STDIN_FILENO (Proc.run_child Proc.shell) env).1
            ∧ (calls_succeed sys (Proc.run_child Proc.shell) →
                (∀ p a, sys.exec_ends p a = true) →
                (∀ st ∈ argss, stage_defined st = true) →
                ∀ (i : Nat) (stage : List CString), argss[i]? = some stage →
                  vsh_is_builtin (strip_redirs stage) = true →
                  Event.exec_builtin
                      (if i + 1 < argss.length
                        then Proc.stage_child (Proc.run_child Proc.shell) i
                        else Proc.run_child Proc.shell)
                      (strip_redirs stage)
                    ∈ (vsh_run sys ts env).1)) := by
  have hne : argss ≠ [] := by
    rw [vsh_parse_args_eq] at hparse
    split at hparse
    · simp only [Option.some.injEq] at hparse
      rw [← hparse]
      exact parse_rec_ne_nil ts []
    · exact Option.noConfusion hparse
  have hiff : argss[1]? = none ↔ argss.length = 1 := by
    cases argss with
    | nil => exact absurd rfl hne
    | cons a r =>
      cases r with
      | nil => simp
      | cons b r => simp
  cases ts with
  | nil => exact absurd rfl hts
  | cons t rest =>
    refine ⟨fun self stage hw => vsh_execute_dispatch sys self env stage hw, ?_, ?_⟩
    · intro hsingle
      have hc : argss[1]? = none ∧ vsh_is_builtin (argss.headD []) = true :=
        ⟨hiff.mpr hsingle.1, hsingle.2⟩
      simp only [vsh_run, hparse, hc, and_self, if_true]
    · intro hmulti hfork
      have hc : ¬ (argss[1]? = none ∧ vsh_is_builtin (argss.headD []) = true) :=
        fun h => hmulti ⟨hiff.mp h.1, h.2⟩
      have hrun : (vsh_run sys (t :: rest) env).1 =
          Event.fork Proc.shell (Proc.run_child Proc.shell) ::
            (vsh_pipeline sys argss 0 STDIN_FILENO (Proc.run_child Proc.shell) env).1 := by
        simp only [vsh_run, hparse, hc, if_false, hfork, Bool.true_eq_false]
        split <;> rfl
      refine ⟨hrun, ?_⟩
      intro hok hends hdef i stage hi hb
      rw [hrun]
      apply List.mem_cons_of_mem
      have := vsh_pipeline_from_builtin_mem sys (Proc.run_child Proc.shell) hok hends
        argss 0 STDIN_FILENO env i stage hdef hi hb
      simpa [vsh_pipeline] using this

/-- C6 (amended), at `cd | ls`: two stages, so `vsh_run` forks, and the stage
`cd` is dispatched to `vsh_exec_builtin` in the child forked for stage 0. -/
theorem C6_builtin_dispatch_by_first_token_witness :
    ["cd".toList, "|".toList, "ls".toList] ≠ []
      ∧ vsh_parse_args ["cd".toList, "|".toList, "ls".toList]
          = some [["cd".toList], ["ls".toList]]
      ∧ Event.exec_builtin (Proc.stage_child (Proc.run_child Proc.shell) 0) ["cd".toList]
          ∈ (vsh_run sys_terminal ["cd".toList, "|".toList, "ls".toList] []).1 :=
  ⟨by decide, by decide,
    ((C6_builtin_dispatch_by_first_token sys_terminal []
        ["cd".toList, "|".toList, "ls".toList] [["cd".toList], ["ls".toList]]
        (by decide) (by decide)).2.2 (by decide) rfl).2
      calls_succeed_sys_terminal (fun _ _ => rfl) (by decide) 0 ["cd".toList]
      (by decide) (by decide)⟩

end Vsh
